import Mathlib

set_option maxRecDepth 8000

namespace Ember

/-!
Shallow embedding of the hxtk/ember OCI-to-CPIO converter:
`pkg/oci/ociwalk.go` (merged-view reader), `pkg/cpio/tar.go`
(tar-to-CPIO header translation), `pkg/cpio/writer.go` (newc writer)
and the driver loop `run` from the main package.
-/

/-! ## Go `path` package helpers (lexical path routines used by ociwalk.go)

String primitives are written over `List Char` with structural recursion
so that every definition reduces inside the kernel. -/

/-- Splitting a character list at `/`, the semantics of
`strings.Split(s, "/")` as `path.Clean` consumes it. -/
def splitOnSlash : List Char → List (List Char)
  | [] => [[]]
  | c :: rest =>
    match splitOnSlash rest with
    | [] => [[c]]
    | g :: gs => if c = '/' then [] :: g :: gs else (c :: g) :: gs

/-- `strings.HasPrefix` (and the test of `strings.CutPrefix`). -/
def strStartsWith (s pre : String) : Bool :=
  pre.data.isPrefixOf s.data

/-- `strings.HasSuffix`. -/
def strEndsWith (s suf : String) : Bool :=
  suf.data.isSuffixOf s.data

/-- Dropping the first `n` characters of a string; for the ASCII
prefixes cut here (`"/"`, `".wh."`) this is Go's byte slicing. -/
def strDrop (s : String) (n : Nat) : String :=
  String.mk (s.data.drop n)

/-- Joining path segments with `/`, the `strings.Join(elems, "/")`
inside Go `path.Join`. -/
def joinSlash : List String → String
  | [] => ""
  | [x] => x
  | x :: y :: xs => x ++ "/" ++ joinSlash (y :: xs)

/-- Removes all trailing `/` characters (first loop of Go `path.Base`). -/
def dropTrailingSlashes (s : String) : String :=
  String.mk ((s.data.reverse.dropWhile (fun c => c = '/')).reverse)

/-- The prefix of `s` up to and including the last `/`, or `""` when `s`
has no slash: the `dir` half of Go `path.Split`. -/
def takeToLastSlash (s : String) : String :=
  String.mk ((s.data.reverse.dropWhile (fun c => c ≠ '/')).reverse)

/-- One step of Go `path.Clean`'s element loop over a reversed stack of
kept segments: empty and `.` segments are dropped; `..` pops the last
kept segment when one is poppable, is dropped at the root of a rooted
path, and is kept when it cannot be popped in a relative path. -/
def cleanStep (rooted : Bool) (acc : List String) (seg : String) : List String :=
  if seg = "" ∨ seg = "." then acc
  else if seg = ".." then
    match acc with
    | [] => if rooted then [] else [".."]
    | top :: rest => if top = ".." then ".." :: top :: rest else rest
  else seg :: acc

/-- Go `path.Clean`: lexical cleaning of a slash-separated path. -/
def pathClean (p : String) : String :=
  if p = "" then "." else
  let rooted := strStartsWith p "/"
  let parts := (((splitOnSlash p.data).map String.mk).foldl (cleanStep rooted) []).reverse
  if parts.isEmpty then (if rooted then "/" else ".")
  else (if rooted then "/" else "") ++ joinSlash parts

/-- Go `path.Base`: the last element of the path after trailing slashes
are removed; `"."` for the empty path, `"/"` for an all-slash path. -/
def pathBase (p : String) : String :=
  if p = "" then "." else
  let q := dropTrailingSlashes p
  if q = "" then "/" else
  String.mk ((q.data.reverse.takeWhile (fun c => c ≠ '/')).reverse)

/-- Go `path.Dir`: `Clean` of everything up to and including the final
slash (`Clean("")` being `"."` when there is no slash). -/
def pathDir (p : String) : String :=
  pathClean (takeToLastSlash p)

/-- Go `path.Join` on two elements: empty elements are dropped, the rest
joined with `/` and cleaned; all-empty input gives `""`. -/
def pathJoin (a b : String) : String :=
  let elems := ([a, b]).filter (fun s => s ≠ "")
  if elems.isEmpty then "" else pathClean (joinSlash elems)

/-- `cleanPath` from ociwalk.go: `path.Clean` followed by
`strings.TrimPrefix(p, "/")`. -/
def cleanPath (p : String) : String :=
  let q := pathClean p
  if strStartsWith q "/" then strDrop q 1 else q

/-! ## Tar headers and the merge engine (`Reader.Next` in ociwalk.go) -/

/-- Tar typeflags relevant to the translator's switch; `other` stands
for every typeflag the Go switch has no case for. -/
inductive TypeFlag where
  | reg | regA | link | symlink | char | block | dir | fifo | other
deriving DecidableEq, Repr

/-- The fields of `archive/tar.Header` this program reads.  `mtime` is
`ModTime.Unix()`.  Integer fields carry the Go `int`/`int64` values. -/
structure TarHeader where
  name : String
  typeflag : TypeFlag
  mode : Int
  uid : Int
  gid : Int
  size : Int
  mtime : Int
  linkname : String
  devmajor : Int
  devminor : Int
deriving DecidableEq, Repr

/-- The whiteout bookkeeping of `oci.Reader`: `seen` holds paths already
emitted or whited out above; `opaqueDirs` holds directories marked
opaque by a `.wh..wh..opq` entry.  Go uses `map[string]struct\x7b\x7d`;
membership is all that is consulted, so lists model the maps. -/
structure MergeState where
  seen : List String
  opaqueDirs : List String
deriving DecidableEq, Repr

/-- The empty state `Open` starts with. -/
def initState : MergeState := ⟨[], []⟩

/-- The per-entry decision of `Reader.Next`: clean the name, handle the
opaque marker, handle `.wh.` whiteouts, then suppress entries hidden by
an opaque directory or already seen; otherwise record and emit the entry
under its cleaned name. -/
def processEntry (st : MergeState) (raw : String) : MergeState × Option String :=
  let name := cleanPath raw
  if pathBase name = ".wh..wh..opq" then
    ({ st with opaqueDirs := pathDir name :: st.opaqueDirs }, none)
  else if strStartsWith (pathBase name) ".wh." then
    let target := pathJoin (pathDir name) (strDrop (pathBase name) 4)
    ({ st with seen := target :: st.seen }, none)
  else if st.opaqueDirs.any (fun d => name = d || strStartsWith name (d ++ "/")) then
    (st, none)
  else if name ∈ st.seen then
    (st, none)
  else
    ({ st with seen := name :: st.seen }, some name)

/-- `processEntry` lifted to a whole header: on emission the header is
returned with its name replaced by the cleaned name (`hdr.Name = name`). -/
def processHdr (st : MergeState) (h : TarHeader) : MergeState × Option TarHeader :=
  match processEntry st h.name with
  | (st2, some n) => (st2, some { h with name := n })
  | (st2, none) => (st2, none)

/-- The merge loop over the entries of one layer, threading the state
and collecting emitted headers in order. -/
def mergeFrom (st : MergeState) : List TarHeader → MergeState × List TarHeader
  | [] => (st, [])
  | h :: rest =>
    match processHdr st h with
    | (st2, none) => mergeFrom st2 rest
    | (st2, some h2) =>
      let r := mergeFrom st2 rest
      (r.1, h2 :: r.2)

/-- The merge loop over the layer list, top layer first (Open reverses
the manifest order), with `seen`/`opaqueDirs` threaded across layers. -/
def mergeLayers (st : MergeState) : List (List TarHeader) → MergeState × List TarHeader
  | [] => (st, [])
  | l :: ls =>
    let r := mergeFrom st l
    let r2 := mergeLayers r.1 ls
    (r2.1, r.2 ++ r2.2)

/-- The full merged emission of an image given its layers top-first. -/
def merge (layers : List (List TarHeader)) : List TarHeader :=
  (mergeLayers initState layers).2

/-! ## `pkg/cpio`: header type and `HeaderFromTar` (tar.go) -/

/-- `cpio.Header`.  `mtime` holds `ModTime.Unix()`; integer fields carry
the Go `int`/`int64` values. -/
structure CpioHeader where
  name : String
  mode : Int
  uid : Int
  gid : Int
  size : Int
  mtime : Int
  devMajor : Int
  devMinor : Int
  rdevMajor : Int
  rdevMinor : Int
  links : Int
  inode : Int
deriving DecidableEq, Repr

/-- `HeaderFromTar`: copies the basic fields, then sets the mode from
the permission bits `th.Mode & 0o7777` ORed with the file-type constant
of the typeflag switch, adjusting the size for directories, symlinks,
devices, fifos and hardlinks.  Typeflags outside the switch leave the
mode without type bits and the size untouched. -/
def headerFromTar (th : TarHeader) (inode : Int) : CpioHeader :=
  let base : CpioHeader :=
    { name := th.name, uid := th.uid, gid := th.gid, size := th.size,
      mtime := th.mtime, devMajor := th.devmajor, devMinor := th.devminor,
      rdevMajor := 0, rdevMinor := 0, links := 0, inode := inode, mode := 0 }
  let perm : Int := Int.land th.mode 4095
  match th.typeflag with
  | .dir => { base with mode := Int.lor perm 0x4000, size := 0 }
  | .symlink => { base with mode := Int.lor perm 0xA000, size := (th.linkname.length : Int) }
  | .char => { base with mode := Int.lor perm 0x2000, size := 0 }
  | .block => { base with mode := Int.lor perm 0x6000, size := 0 }
  | .fifo => { base with mode := Int.lor perm 0x1000, size := 0 }
  | .reg => { base with mode := Int.lor perm 0x8000 }
  | .regA => { base with mode := Int.lor perm 0x8000 }
  | .link => { base with mode := Int.lor perm 0x8000, size := 0 }
  | .other => { base with mode := perm }

/-! ## The driver loop (`run` in the main package) -/

/-- The per-entry translation of `run`: nlink is 2 for directories and 1
otherwise, and the CPIO header is `HeaderFromTar(hdr, inode)` with
`Links` overwritten.  The source also builds a local `name` with a `./`
prefix (and `/` suffix for directories) but never uses it, so the
header's name stays the merge engine's cleaned name. -/
def runHeader (th : TarHeader) (inode : Int) : CpioHeader :=
  let nlink : Int := if th.typeflag = .dir then 2 else 1
  { headerFromTar th inode with links := nlink }

/-- The headers `run` writes for the merged entries, with the inode
counter starting from `ino` and incremented per entry. -/
def runHeaders : List TarHeader → Int → List CpioHeader
  | [], _ => []
  | th :: rest, ino => runHeader th ino :: runHeaders rest (ino + 1)

/-- The trailer header `Writer.Close` writes: a Go zero-value
`cpio.Header` except `Name` and `Links`.  The zero `time.Time` has
`Unix() = -62135596800`; `Inode` is the zero value `0`. -/
def trailerHeader : CpioHeader :=
  { name := "TRAILER!!!", mode := 0, uid := 0, gid := 0, size := 0,
    mtime := -62135596800, devMajor := 0, devMinor := 0,
    rdevMajor := 0, rdevMinor := 0, links := 1, inode := 0 }

/-- All CPIO headers one conversion writes for the merged entries `es`:
`run` writes one per entry with inodes from 1, then `Close` writes the
trailer. -/
def archiveHeaders (es : List TarHeader) : List CpioHeader :=
  runHeaders es 1 ++ [trailerHeader]

/-! ## `pkg/cpio`: the newc writer (writer.go)

The output stream is modelled as a list of byte values (`Nat < 256`). -/

/-- Go's `uint32(x)` conversion: the low 32 bits of the integer. -/
def u32 (x : Int) : Nat := (x % 4294967296).toNat

/-- The most significant `k` base-16 digits of `n`, zero padded: the
digit sequence `%08X` prints when `k = 8` and `n < 2^32`. -/
def hexDigits : Nat → Nat → List Nat
  | 0, _ => []
  | k + 1, n => hexDigits k (n / 16) ++ [n % 16]

/-- A hex digit as its ASCII byte, uppercase for 10–15 (`%X`). -/
def hexChar (d : Nat) : Nat := if d < 10 then 48 + d else 55 + d

/-- One `%08X` field of the fixed header: 8 uppercase hex digit bytes of
the value truncated to 32 bits. -/
def field8 (x : Int) : List Nat := (hexDigits 8 (u32 x)).map hexChar

/-- The UTF-8 bytes of a string, Go's `[]byte(s)` ( the payload of
`String.toUTF8`). -/
def strBytes (s : String) : List Nat :=
  (s.data.flatMap String.utf8EncodeChar).map UInt8.toNat

/-- The bytes of the magic literal `"070701"`. -/
def magicBytes : List Nat := strBytes "070701"

/-- The byte sequence `WriteHeader` emits for a header: the 110-byte
fixed header (`magic` then 13 `%08X` fields in the Sprintf order), the
name bytes, a NUL, and zero padding of `110 + namesize` to a multiple
of 4. -/
def writeHeaderBytes (h : CpioHeader) : List Nat :=
  let nameBytes := strBytes h.name
  let nameSize := nameBytes.length + 1
  let headerStr :=
    magicBytes ++ field8 h.inode ++ field8 h.mode ++ field8 h.uid ++
    field8 h.gid ++ field8 h.links ++ field8 h.mtime ++ field8 h.size ++
    field8 h.devMajor ++ field8 h.devMinor ++ field8 h.rdevMajor ++
    field8 h.rdevMinor ++ field8 (nameSize : Int) ++ field8 0
  let totalHeaderLen := 110 + nameSize
  let padLen := (4 - totalHeaderLen % 4) % 4
  headerStr ++ nameBytes ++ [0] ++ List.replicate padLen 0

/-- The errors `Writer` methods return.  `ioErr` stands for an error of
the underlying `io.Writer` stored in `tw.err` (never produced by the
pure model, in which the sink cannot fail). -/
inductive WriterErr where
  | closedWriter | writeBeforeHeader | ioErr
deriving DecidableEq, Repr

/-- The mutable state of `cpio.Writer`: the bytes written to the sink,
the stored error, bytes written to the current entry, the pending body
padding, and the closed / header-written flags. -/
structure WriterState where
  out : List Nat
  err : Option WriterErr
  nb : Int
  pad : Int
  closed : Bool
  headerWritten : Bool
deriving DecidableEq, Repr

/-- `NewWriter`: zero-valued state over an empty sink. -/
def newWriter : WriterState :=
  { out := [], err := none, nb := 0, pad := 0, closed := false, headerWritten := false }

/-- `flushPadding`: write `pad` zero bytes and clear `headerWritten`.
It never checks how many body bytes were supplied. -/
def flushPadding (tw : WriterState) : WriterState :=
  { tw with out := tw.out ++ List.replicate tw.pad.toNat 0, headerWritten := false }

/-- `WriteHeader`: rejected on a closed writer or a stored error;
otherwise flushes the padding of a still-open previous entry, emits the
header bytes, and arms the body state (`nb = 0`,
`pad = (4 - size % 4) % 4`). -/
def writeHeaderW (tw : WriterState) (h : CpioHeader) : WriterState × Option WriterErr :=
  if tw.closed then (tw, some .closedWriter)
  else if tw.err.isSome then (tw, tw.err)
  else
    let tw1 := if tw.headerWritten then flushPadding tw else tw
    ({ tw1 with out := tw1.out ++ writeHeaderBytes h, nb := 0,
                pad := (4 - h.size % 4) % 4, headerWritten := true }, none)

/-- `Write`: rejected on a closed writer or before any header; otherwise
appends the bytes to the sink and adds their count to `nb`.  There is no
comparison of `nb` against the declared size. -/
def writeW (tw : WriterState) (b : List Nat) : WriterState × Nat × Option WriterErr :=
  if tw.closed then (tw, 0, some .closedWriter)
  else if !tw.headerWritten then (tw, 0, some .writeBeforeHeader)
  else ({ tw with out := tw.out ++ b, nb := tw.nb + b.length }, b.length, none)

/-- `Close`: idempotent; flushes an open entry's padding, writes the
trailer header, flushes again, and marks the writer closed. -/
def closeW (tw : WriterState) : WriterState × Option WriterErr :=
  if tw.closed then (tw, none)
  else
    let tw1 := if tw.headerWritten then flushPadding tw else tw
    match writeHeaderW tw1 trailerHeader with
    | (tw2, some e) => (tw2, some e)
    | (tw2, none) => ({ flushPadding tw2 with closed := true }, none)

/-! ## The `oci.Reader` state machine (`Next`/`Read` with layer handles)

Each layer is the remaining output of its tar reader: a list of entries,
an entry being a header plus body bytes. -/

/-- One tar entry of a layer blob. -/
structure TarEntry where
  hdr : TarHeader
  body : List Nat
deriving DecidableEq, Repr

/-- A `layerReader`: the body bytes of the file the tar reader is
positioned at, and the entries it has not yet returned. -/
structure LayerState where
  body : List Nat
  entries : List TarEntry
deriving DecidableEq, Repr

/-- `oci.Reader`: unvisited layers (top first), the whiteout
bookkeeping, and the current layer (`cur`, nil when no layer is open). -/
structure ReaderState where
  layers : List (List TarEntry)
  st : MergeState
  cur : Option LayerState
deriving DecidableEq, Repr

/-- `Open`: all layers pending, empty bookkeeping, no current layer. -/
def openReader (ls : List (List TarEntry)) : ReaderState :=
  { layers := ls, st := initState, cur := none }

/-- Measure for the `Next` loop: weight of the current layer. -/
def curMeasure : Option LayerState → Nat
  | none => 0
  | some l => l.entries.length + 1

/-- `Reader.Next`: opens the next layer when none is current, drops an
exhausted layer, and otherwise applies the whiteout decision to the
layer's next entry, returning it (with cleaned name) when visible and
looping when hidden.  Returns `none` for `io.EOF`. -/
def next : ReaderState → ReaderState × Option TarHeader
  | ⟨[], st, none⟩ => (⟨[], st, none⟩, none)
  | ⟨l :: rest, st, none⟩ => next ⟨rest, st, some ⟨[], l⟩⟩
  | ⟨layers, st, some ⟨_, []⟩⟩ => next ⟨layers, st, none⟩
  | ⟨layers, st, some ⟨_, e :: es⟩⟩ =>
    match processEntry st e.hdr.name with
    | (st2, some n) => (⟨layers, st2, some ⟨e.body, es⟩⟩, some { e.hdr with name := n })
    | (st2, none) => next ⟨layers, st2, some ⟨e.body, es⟩⟩
termination_by r => (r.layers.length, curMeasure r.cur)
decreasing_by
  all_goals simp_all [curMeasure]
  · apply Prod.Lex.left
    omega
  · apply Prod.Lex.right
    omega
  · apply Prod.Lex.right
    omega

/-- `Reader.Read` asking for `n` bytes: `(0, io.EOF)` when no layer is
current, else the tar reader's read of the current file — `(0, io.EOF)`
when its body is exhausted, otherwise up to `n` bytes.  The `Bool` is
the `io.EOF` flag. -/
def readR (r : ReaderState) (n : Nat) : List Nat × ReaderState × Bool :=
  match r.cur with
  | none => ([], r, true)
  | some ls =>
    if ls.body.isEmpty then ([], r, true)
    else (ls.body.take n, { r with cur := some { ls with body := ls.body.drop n } }, false)

/-! ## Concrete inputs used by the claim checks -/

/-- A tar header with the given name and typeflag and mode `0o755`;
metadata immaterial to the merge decisions. -/
def plainHdr (n : String) (t : TypeFlag) : TarHeader :=
  { name := n, typeflag := t, mode := 0o755, uid := 0, gid := 0, size := 0,
    mtime := 0, linkname := "", devmajor := 0, devminor := 0 }

/-- The two layers of scenario S3 (top first): top has `./d/`, the
opaque marker `./d/.wh..wh..opq`, then `./d/z`; the base has `./d/`,
`./d/x`, `./d/y`. -/
def s3Layers : List (List TarHeader) :=
  [[plainHdr "./d/" .dir, plainHdr "./d/.wh..wh..opq" .reg, plainHdr "./d/z" .reg],
   [plainHdr "./d/" .dir, plainHdr "./d/x" .reg, plainHdr "./d/y" .reg]]

/-- Layers with a directory whiteout above a directory and a file inside
it (top first): top has `.wh.d`; the base has `d` and `d/x`. -/
def whdLayers : List (List TarHeader) :=
  [[plainHdr ".wh.d" .reg], [plainHdr "d" .dir, plainHdr "d/x" .reg]]

/-- Whether some `/`-separated segment of the string is `..`. -/
def hasDotDotSeg (s : String) : Bool :=
  ((splitOnSlash s.data).map String.mk).contains ".."

/-! ## Claim checks -/

/-- C1: the claim says a whiteout `.wh.d` in a higher layer hides both
`d` and every path under `d/` from lower layers.  On `whdLayers` the
code emits the lower layer's descendant `d/x`: the `seen` entry inserted
for a whiteout suppresses only the exact target path, so the claim fails
on the code. -/
theorem whiteout_leaves_descendant_visible :
    (merge whdLayers).map (fun h => h.name) = ["d/x"] := by decide

/-- C2: on the S3 layers the code emits only `d` — the opaque marker
recorded in `opaqueDirs` also suppresses `./d/z`, an entry of the same
(top) layer that follows the marker — whereas the claim expects the
emission `./d/`, `./d/z`. -/
theorem opaque_marker_hides_same_layer_successor :
    (merge s3Layers).map (fun h => h.name) = ["d"] := by decide

/-- C9 counterexample: an entry whose cleaned path keeps a `..` segment
is emitted by the merge engine (and recorded in `seen`), not rejected
with an error: the code has no `MalformedPath` failure. -/
theorem dotdot_entry_emitted :
    hasDotDotSeg (cleanPath "../x") = true ∧
    (merge [[plainHdr "../x" .reg]]).map (fun h => h.name) = ["../x"] := by decide

/-- C9 amended: the merge engine never rejects a `..` path segment; an
entry whose cleaned name keeps a `..` segment and is no whiteout marker,
not masked by an opaque directory and not seen is yielded under its
cleaned name, exactly like any other entry. -/
theorem dotdot_not_rejected (st : MergeState) (raw : String)
    (h1 : hasDotDotSeg (cleanPath raw) = true)
    (h2 : pathBase (cleanPath raw) ≠ ".wh..wh..opq")
    (h3 : strStartsWith (pathBase (cleanPath raw)) ".wh." = false)
    (h4 : st.opaqueDirs.any
      (fun d => cleanPath raw = d || strStartsWith (cleanPath raw) (d ++ "/")) = false)
    (h5 : cleanPath raw ∉ st.seen) :
    processEntry st raw = ({ st with seen := cleanPath raw :: st.seen }, some (cleanPath raw)) := by
  unfold processEntry
  simp [h2, h3, h4, h5]

/-- Witness for the amended C9 at the concrete entry `../x`. -/
theorem dotdot_not_rejected_witness :
    hasDotDotSeg (cleanPath "../x") = true ∧
    processEntry initState "../x" =
      ({ initState with seen := cleanPath "../x" :: initState.seen }, some (cleanPath "../x")) :=
  ⟨by decide,
   dotdot_not_rejected initState "../x" (by decide) (by decide) (by decide) (by decide)
     (by decide)⟩

/-- C3: converting an image whose single layer holds the directory
`./etc/`, the CPIO header written carries the name `etc`: the merge
engine emits the cleaned name (no `./`), and `run` computes the
prefixed/suffixed name in a local it never uses, so neither the `./`
prefix nor the directory's trailing `/` reaches the archive. -/
theorem emitted_name_lacks_dot_slash_prefix :
    (runHeaders (merge [[plainHdr "./etc/" .dir]]) 1).map (fun h => h.name) = ["etc"] ∧
    strStartsWith "etc" "./" = false ∧
    strEndsWith "etc" "/" = false := by decide

/-- The inode of a translated header is the counter value passed in. -/
theorem runHeader_inode (th : TarHeader) (k : Int) : (runHeader th k).inode = k := by
  cases h : th.typeflag <;> simp [runHeader, headerFromTar, h]

/-- `runHeaders` assigns consecutive inodes starting at the counter. -/
theorem runHeaders_map_inode (es : List TarHeader) (k : Int) :
    (runHeaders es k).map (fun h => h.inode)
      = (List.range es.length).map (fun i => k + Int.ofNat i) := by
  induction es generalizing k with
  | nil => simp [runHeaders]
  | cons h t ih =>
    rw [List.length_cons, List.range_succ_eq_map]
    simp only [runHeaders, List.map_cons, runHeader_inode, ih, List.map_map]
    refine List.cons_eq_cons.mpr ⟨by simp, ?_⟩
    apply List.map_congr_left
    intro a _
    simp only [Function.comp_apply, Int.ofNat_eq_natCast]
    push_cast
    ring

/-- C4 counterexample: for a one-entry conversion the written inode
sequence is `[1, 0]`, not the `[1, 2]` the claim requires — the trailer
is a zero-valued header whose inode is `0`, not the next free inode. -/
theorem trailer_inode_not_succ :
    ¬ (archiveHeaders [plainHdr "./hello" .reg]).map (fun h => h.inode) = [1, 2] := by decide

/-- C4 amended: the entry headers carry the strictly increasing inodes
1, 2, …, N in emission order, and the trailer record carries inode 0
(the Go zero value), not N+1. -/
theorem inode_sequence_with_zero_trailer (es : List TarHeader) :
    (archiveHeaders es).map (fun h => h.inode)
      = (List.range es.length).map (fun i => Int.ofNat i + 1) ++ [0] := by
  unfold archiveHeaders
  rw [List.map_append, runHeaders_map_inode]
  refine congrArg₂ _ (List.map_congr_left ?_) rfl
  intro a _
  omega

/-- A size-0 regular-file header for the writer checks. -/
def aHdr : CpioHeader :=
  { name := "a", mode := 0x81A4, uid := 0, gid := 0, size := 0, mtime := 0,
    devMajor := 0, devMinor := 0, rdevMajor := 0, rdevMinor := 0, links := 1, inode := 1 }

/-- A size-2 regular-file header for the writer checks. -/
def bHdr : CpioHeader :=
  { aHdr with name := "b", size := 2, inode := 2 }

/-- C7: after a header declaring size 0, writing one byte succeeds —
`Write` returns count 1 with no error and appends the byte to the
archive — although the accumulated body (1 byte) exceeds the declared
filesize (0).  The code never compares `nb` with the size, contradicting
the claim (and `Write`'s own doc comment promising `ErrWriteTooLong`). -/
theorem write_beyond_size_succeeds :
    aHdr.size = 0 ∧
    (writeW (writeHeaderW newWriter aHdr).1 [65]).2 = (1, none) ∧
    (writeW (writeHeaderW newWriter aHdr).1 [65]).1.out
      = (writeHeaderW newWriter aHdr).1.out ++ [65] := by decide

/-- C8 counterexample: with the previous entry declaring size 2 and no
body byte supplied (`nb = 0`), the next `WriteHeader` succeeds — it
returns no error, so no `BodyUnderrun` failure exists in the code. -/
theorem writeHeader_underrun_no_error :
    bHdr.size = 2 ∧ (writeHeaderW newWriter bHdr).1.nb = 0 ∧
    (writeHeaderW (writeHeaderW newWriter bHdr).1 aHdr).2 = none := by decide

/-- C8 amended: on an open, error-free writer with a previous entry
still open, `WriteHeader` never checks how much body was supplied: it
unconditionally writes the pending padding computed from the declared
size, then the new header's bytes, and succeeds. -/
theorem writeHeader_flushes_and_emits (tw : WriterState) (h : CpioHeader)
    (hc : tw.closed = false) (he : tw.err = none) (hw : tw.headerWritten = true) :
    writeHeaderW tw h =
      ({ tw with out := tw.out ++ List.replicate tw.pad.toNat 0 ++ writeHeaderBytes h,
                 nb := 0, pad := (4 - h.size % 4) % 4, headerWritten := true }, none) := by
  simp [writeHeaderW, hc, he, hw, flushPadding]

/-- Witness for the amended C8: the writer state after a size-2 header
with no body bytes written. -/
theorem writeHeader_flushes_and_emits_witness :
    (writeHeaderW newWriter bHdr).1.closed = false ∧
    (writeHeaderW newWriter bHdr).1.nb = 0 ∧
    writeHeaderW (writeHeaderW newWriter bHdr).1 aHdr =
      ({ (writeHeaderW newWriter bHdr).1 with
          out := (writeHeaderW newWriter bHdr).1.out
            ++ List.replicate (writeHeaderW newWriter bHdr).1.pad.toNat 0
            ++ writeHeaderBytes aHdr,
          nb := 0, pad := (4 - aHdr.size % 4) % 4, headerWritten := true }, none) :=
  ⟨by decide, by decide,
   writeHeader_flushes_and_emits (writeHeaderW newWriter bHdr).1 aHdr
     (by decide) (by decide) (by decide)⟩

/-- When `Next` reports end of stream, no layer is current. -/
theorem next_eof_cur_none : ∀ (r r2 : ReaderState), next r = (r2, none) → r2.cur = none := by
  intro r
  induction r using Ember.next.induct with
  | case1 st => intro r2 h; rw [next] at h; simp at h; cases h; rfl
  | case2 l rest st ih => intro r2 h; rw [next] at h; exact ih r2 h
  | case3 layers st body ih => intro r2 h; rw [next] at h; exact ih r2 h
  | case4 layers st body e es st2 n hp =>
    intro r2 h; rw [next] at h; simp [hp] at h
  | case5 layers st body e es st2 hp ih =>
    intro r2 h; rw [next] at h; simp [hp] at h; exact ih r2 h

/-- C10: `Read` with no current entry — on a freshly opened reader, any
time `cur` is nil (as after a layer is exhausted), and after `Next` has
returned end of stream — yields 0 bytes with `io.EOF` and leaves the
reader unchanged. -/
theorem read_without_current_entry_eof (ls : List (List TarEntry))
    (r r2 : ReaderState) (n : Nat) :
    readR (openReader ls) n = ([], openReader ls, true) ∧
    (r.cur = none → readR r n = ([], r, true)) ∧
    (next r = (r2, none) → readR r2 n = ([], r2, true)) := by
  refine ⟨rfl, fun h => ?_, fun h => ?_⟩
  · unfold readR
    rw [h]
  · unfold readR
    rw [next_eof_cur_none r r2 h]

/-- Witness for C10 on a concrete empty reader: `Next` returns end of
stream there, and `Read` then returns 0 bytes and `io.EOF`. -/
theorem read_without_current_entry_eof_witness :
    next (openReader []) = (openReader [], none) ∧
    readR (openReader []) 4 = ([], openReader [], true) :=
  ⟨by simp [next, openReader],
   (read_without_current_entry_eof [] (openReader []) (openReader []) 4).2.2
     (by simp [next, openReader])⟩

/-- `m & 0o7777` is a value in `[0, 4096)` for every integer `m`,
negative two's-complement values included. -/
theorem land4095_bounds (m : Int) : 0 ≤ Int.land m 4095 ∧ Int.land m 4095 < 4096 := by
  cases m with
  | ofNat q =>
    have h1 : Int.land (Int.ofNat q) 4095 = Int.ofNat (q &&& 4095) := rfl
    have h2 : q &&& 4095 < 4096 := Nat.and_lt_two_pow q (by norm_num : (4095 : Nat) < 2 ^ 12)
    rw [h1, Int.ofNat_eq_natCast]
    exact ⟨Int.natCast_nonneg _, by exact_mod_cast h2⟩
  | negSucc q =>
    have h1 : Int.land (Int.negSucc q) 4095 = Int.ofNat (Nat.ldiff 4095 q) := rfl
    have h2 : Nat.ldiff 4095 q < 2 ^ 12 := by
      apply Nat.lt_pow_two_of_testBit
      intro i hi
      rw [Nat.testBit_ldiff]
      have h3 : Nat.testBit 4095 i = false :=
        Nat.testBit_lt_two_pow
          (lt_of_lt_of_le (by norm_num) (Nat.pow_le_pow_right (by norm_num) hi))
      simp [h3]
    rw [h1, Int.ofNat_eq_natCast]
    norm_num at h2
    exact ⟨Int.natCast_nonneg _, by exact_mod_cast h2⟩

/-- ORing a value below `2^12` with a multiple of `2^12` is addition. -/
theorem lor_typebits (q c : Nat) (hq : q < 4096) : q ||| 4096 * c = 4096 * c + q := by
  have h := Nat.mul_add_lt_is_or (b := q) (i := 12) (by norm_num; omega) c
  rw [Nat.lor_comm]
  norm_num at h
  exact h.symm

/-- Splitting the translated mode word: the low 12 bits are the masked
permission bits and the high bits are the type-bit constant. -/
theorem mode_decomp (m : Int) (c : Nat) :
    Int.lor (Int.land m 4095) (Int.ofNat (4096 * c)) % 4096 = Int.land m 4095 ∧
    Int.lor (Int.land m 4095) (Int.ofNat (4096 * c)) / 4096 * 4096 = Int.ofNat (4096 * c) := by
  obtain ⟨h0, h1⟩ := land4095_bounds m
  obtain ⟨q, hq⟩ := Int.eq_ofNat_of_zero_le h0
  rw [hq] at h1 ⊢
  have hq4 : q < 4096 := by exact_mod_cast h1
  have hlor : Int.lor ((q : Nat) : Int) (Int.ofNat (4096 * c)) = Int.ofNat (q ||| 4096 * c) := rfl
  rw [hlor, lor_typebits q c hq4]
  simp only [Int.ofNat_eq_natCast]
  push_cast
  omega

/-- C6: for every translated header, the low 12 bits of the CPIO mode
are `t.mode & 0o7777`, and the file-type bits and size follow the
typeflag table: regular `0x8000`/`t.size`, directory `0x4000`/0,
symlink `0xA000`/`len(t.linkname)`, hardlink `0x8000`/0, char device
`0x2000`/0, block device `0x6000`/0, fifo `0x1000`/0. -/
theorem headerFromTar_mode_size (th : TarHeader) (ino : Int) :
    (headerFromTar th ino).mode % 4096 = Int.land th.mode 4095 ∧
    (th.typeflag = .reg ∨ th.typeflag = .regA →
      (headerFromTar th ino).mode / 4096 * 4096 = 0x8000 ∧
      (headerFromTar th ino).size = th.size) ∧
    (th.typeflag = .dir →
      (headerFromTar th ino).mode / 4096 * 4096 = 0x4000 ∧ (headerFromTar th ino).size = 0) ∧
    (th.typeflag = .symlink →
      (headerFromTar th ino).mode / 4096 * 4096 = 0xA000 ∧
      (headerFromTar th ino).size = Int.ofNat th.linkname.length) ∧
    (th.typeflag = .link →
      (headerFromTar th ino).mode / 4096 * 4096 = 0x8000 ∧ (headerFromTar th ino).size = 0) ∧
    (th.typeflag = .char →
      (headerFromTar th ino).mode / 4096 * 4096 = 0x2000 ∧ (headerFromTar th ino).size = 0) ∧
    (th.typeflag = .block →
      (headerFromTar th ino).mode / 4096 * 4096 = 0x6000 ∧ (headerFromTar th ino).size = 0) ∧
    (th.typeflag = .fifo →
      (headerFromTar th ino).mode / 4096 * 4096 = 0x1000 ∧ (headerFromTar th ino).size = 0) := by
  obtain ⟨hp0, hp1⟩ := land4095_bounds th.mode
  cases hf : th.typeflag
  case reg =>
    simp only [headerFromTar, hf]
    refine ⟨(mode_decomp th.mode 8).1, ?_, ?_, ?_, ?_, ?_, ?_, ?_⟩ <;> intro hh <;>
      first
        | exact ⟨(mode_decomp th.mode 8).2, by trivial⟩
        | exact absurd hh (by decide)
  case regA =>
    simp only [headerFromTar, hf]
    refine ⟨(mode_decomp th.mode 8).1, ?_, ?_, ?_, ?_, ?_, ?_, ?_⟩ <;> intro hh <;>
      first
        | exact ⟨(mode_decomp th.mode 8).2, by trivial⟩
        | exact absurd hh (by decide)
  case link =>
    simp only [headerFromTar, hf]
    refine ⟨(mode_decomp th.mode 8).1, ?_, ?_, ?_, ?_, ?_, ?_, ?_⟩ <;> intro hh <;>
      first
        | exact ⟨(mode_decomp th.mode 8).2, by trivial⟩
        | exact absurd hh (by decide)
  case dir =>
    simp only [headerFromTar, hf]
    refine ⟨(mode_decomp th.mode 4).1, ?_, ?_, ?_, ?_, ?_, ?_, ?_⟩ <;> intro hh <;>
      first
        | exact ⟨(mode_decomp th.mode 4).2, by trivial⟩
        | exact absurd hh (by decide)
  case symlink =>
    simp only [headerFromTar, hf]
    refine ⟨(mode_decomp th.mode 10).1, ?_, ?_, ?_, ?_, ?_, ?_, ?_⟩ <;> intro hh <;>
      first
        | exact ⟨(mode_decomp th.mode 10).2, by trivial⟩
        | exact absurd hh (by decide)
  case char =>
    simp only [headerFromTar, hf]
    refine ⟨(mode_decomp th.mode 2).1, ?_, ?_, ?_, ?_, ?_, ?_, ?_⟩ <;> intro hh <;>
      first
        | exact ⟨(mode_decomp th.mode 2).2, by trivial⟩
        | exact absurd hh (by decide)
  case block =>
    simp only [headerFromTar, hf]
    refine ⟨(mode_decomp th.mode 6).1, ?_, ?_, ?_, ?_, ?_, ?_, ?_⟩ <;> intro hh <;>
      first
        | exact ⟨(mode_decomp th.mode 6).2, by trivial⟩
        | exact absurd hh (by decide)
  case fifo =>
    simp only [headerFromTar, hf]
    refine ⟨(mode_decomp th.mode 1).1, ?_, ?_, ?_, ?_, ?_, ?_, ?_⟩ <;> intro hh <;>
      first
        | exact ⟨(mode_decomp th.mode 1).2, by trivial⟩
        | exact absurd hh (by decide)
  case other =>
    simp only [headerFromTar, hf]
    refine ⟨Int.emod_eq_of_lt hp0 hp1, ?_, ?_, ?_, ?_, ?_, ?_, ?_⟩ <;> intro hh <;>
      exact absurd hh (by decide)

/-- Witness for C6 at a concrete symlink header. -/
theorem headerFromTar_mode_size_witness :
    (plainHdr "./link" .symlink).typeflag = .symlink ∧
    ((headerFromTar { plainHdr "./link" .symlink with linkname := "target/path" } 1).mode
        / 4096 * 4096 = 0xA000 ∧
      (headerFromTar { plainHdr "./link" .symlink with linkname := "target/path" } 1).size
        = Int.ofNat ({ plainHdr "./link" .symlink with linkname := "target/path" } :
            TarHeader).linkname.length) :=
  ⟨rfl,
   (headerFromTar_mode_size { plainHdr "./link" .symlink with linkname := "target/path" } 1).2.2.2.1
     rfl⟩

/-! ## C5: the newc byte format of `WriteHeader` -/

/-- The numeric value of an ASCII hex digit byte (uppercase letters). -/
def hexCharVal (b : Nat) : Nat := if b < 58 then b - 48 else b - 55

/-- Decoding a big-endian sequence of ASCII hex digit bytes. -/
def hexValBytes (bs : List Nat) : Nat :=
  bs.foldl (fun a b => 16 * a + hexCharVal b) 0

/-- Whether a byte is an ASCII digit or an uppercase `A`–`F`. -/
def isUpperHexByte (b : Nat) : Bool :=
  (48 ≤ b && b ≤ 57) || (65 ≤ b && b ≤ 70)

/-- `hexDigits` always yields exactly `k` digits. -/
theorem hexDigits_length (k n : Nat) : (hexDigits k n).length = k := by
  induction k generalizing n with
  | zero => simp [hexDigits]
  | succ k ih => simp [hexDigits, ih]

/-- Every digit `hexDigits` yields is below 16. -/
theorem hexDigits_lt (k n : Nat) : ∀ d ∈ hexDigits k n, d < 16 := by
  induction k generalizing n with
  | zero => simp [hexDigits]
  | succ k ih =>
    intro d hd
    simp only [hexDigits, List.mem_append, List.mem_singleton] at hd
    rcases hd with h | h
    · exact ih _ d h
    · subst h
      exact Nat.mod_lt _ (by norm_num)

/-- Encoding then decoding a hex digit is the identity below 16. -/
theorem hexCharVal_hexChar (d : Nat) (h : d < 16) : hexCharVal (hexChar d) = d := by
  unfold hexChar hexCharVal
  split_ifs <;> omega

/-- Decoding the `k`-digit big-endian hex encoding of `n` recovers
`n mod 16^k`. -/
theorem hexValBytes_hexDigits (k : Nat) : ∀ (n a : Nat),
    ((hexDigits k n).map hexChar).foldl (fun x b => 16 * x + hexCharVal b) a
      = a * 16 ^ k + n % 16 ^ k := by
  induction k with
  | zero => intro n a; simp [hexDigits, Nat.mod_one]
  | succ k ih =>
    intro n a
    simp only [hexDigits, List.map_append, List.foldl_append, List.map_cons, List.map_nil,
      List.foldl_cons, List.foldl_nil, ih]
    rw [hexCharVal_hexChar (n % 16) (Nat.mod_lt _ (by norm_num))]
    have hm : n % 16 ^ (k + 1) = n % 16 + 16 * (n / 16 % 16 ^ k) := by
      rw [pow_succ']
      exact Nat.mod_mul
    rw [hm, pow_succ]
    ring

/-- The three format facts about one `%08X` field: 8 bytes, all
uppercase hex digit bytes, decoding to the 32-bit truncated value. -/
theorem field8_spec (x : Int) :
    (field8 x).length = 8 ∧ (∀ b ∈ field8 x, isUpperHexByte b = true) ∧
    hexValBytes (field8 x) = u32 x := by
  refine ⟨by simp [field8, hexDigits_length], ?_, ?_⟩
  · intro b hb
    simp only [field8, List.mem_map] at hb
    obtain ⟨d, hd, rfl⟩ := hb
    have hlt := hexDigits_lt 8 (u32 x) d hd
    unfold isUpperHexByte hexChar
    split_ifs <;> simp <;> omega
  · unfold hexValBytes field8
    rw [hexValBytes_hexDigits]
    have h1 : 0 ≤ x % 4294967296 := Int.emod_nonneg x (by norm_num)
    have h2 : x % 4294967296 < 4294967296 := Int.emod_lt_of_pos x (by norm_num)
    have h3 : u32 x < 4294967296 := by unfold u32; omega
    have h4 : (16 : Nat) ^ 8 = 4294967296 := by norm_num
    rw [h4]
    rw [Nat.mod_eq_of_lt h3]
    ring

/-- C5: `WriteHeader` emits the literal `"070701"`, then the 13 fields
inode, mode, uid, gid, nlink, mtime, filesize, devmajor, devminor,
rdevmajor, rdevminor, namesize, checksum — each exactly 8 uppercase hex
digit bytes decoding to the value truncated to its low 32 bits, the
checksum always 0 and namesize the name's byte length plus 1 — then the
name bytes, one NUL, and zero padding of `110 + namesize` to the next
multiple of 4 (the fixed part being exactly 110 bytes). -/
theorem writeHeader_newc_format (h : CpioHeader) :
    writeHeaderBytes h =
      magicBytes
        ++ ([h.inode, h.mode, h.uid, h.gid, h.links, h.mtime, h.size,
             h.devMajor, h.devMinor, h.rdevMajor, h.rdevMinor,
             Int.ofNat ((strBytes h.name).length + 1), 0].map field8).flatten
        ++ strBytes h.name ++ [0]
        ++ List.replicate ((4 - (110 + ((strBytes h.name).length + 1)) % 4) % 4) 0 ∧
    (∀ x : Int, (field8 x).length = 8 ∧ (∀ b ∈ field8 x, isUpperHexByte b = true) ∧
      hexValBytes (field8 x) = u32 x) ∧
    (magicBytes
        ++ ([h.inode, h.mode, h.uid, h.gid, h.links, h.mtime, h.size,
             h.devMajor, h.devMinor, h.rdevMajor, h.rdevMinor,
             Int.ofNat ((strBytes h.name).length + 1), 0].map field8).flatten).length = 110 ∧
    (110 + ((strBytes h.name).length + 1)
      + (4 - (110 + ((strBytes h.name).length + 1)) % 4) % 4) % 4 = 0 := by
  have hm6 : magicBytes.length = 6 := by decide
  have hf8 : ∀ x : Int, (field8 x).length = 8 := fun x => (field8_spec x).1
  refine ⟨?_, field8_spec, ?_, by omega⟩
  · simp [writeHeaderBytes, List.flatten, List.append_assoc]
  · simp [List.length_append, hm6, hf8, List.flatten, List.length_flatten]

/-- Witness for C5: one field of the trailer header's encoding checked
concretely. -/
theorem writeHeader_newc_format_witness :
    (48 : Nat) ∈ field8 trailerHeader.inode ∧
    isUpperHexByte 48 = true ∧
    hexValBytes (field8 trailerHeader.inode) = u32 trailerHeader.inode :=
  ⟨by decide,
   ((writeHeader_newc_format trailerHeader).2.1 trailerHeader.inode).2.1 48 (by decide),
   ((writeHeader_newc_format trailerHeader).2.1 trailerHeader.inode).2.2⟩

end Ember
